import Mathlib

/-!
Shallow embedding of the FEFO lot-selection and batch-creation logic of
`src/DBMS_final/app/manufacturer_actions.py` (functions `auto_select_lots_fefo`,
`create_product_batch`, `trace_product_recall`).

Database rows are modelled as Lean structures; DECIMAL quantities are modelled
as rationals; dates are modelled as integers (days), with `today` passed
explicitly (the code uses CURDATE()).  The mutable `staging_consumption` table
is threaded through the functions as an explicit list argument and result.
-/

/-- A row of the `ingredient_batch` table (an ingredient lot). -/
structure IngredientBatch where
  ingredient_batch_id : Nat
  ingredient_id : Nat
  on_hand_oz : ℚ
  expiration_date : Int
  deriving DecidableEq, Repr

/-- A row of the `recipe_plan_item` table joined with the ingredient, as
returned by the recipe query at the top of `auto_select_lots_fefo`. -/
structure RecipePlanItem where
  ingredient_id : Nat
  qty_oz_per_unit : ℚ
  deriving DecidableEq, Repr

/-- A row of the `staging_consumption` table. -/
structure StagingConsumption where
  session_token : String
  ingredient_batch_id : Nat
  qty_oz : ℚ
  deriving DecidableEq, Repr

/-- The ORDER BY key of the FEFO lot query:
`ORDER BY ib.expiration_date ASC, ib.ingredient_batch_id ASC`. -/
def fefoLE (a b : IngredientBatch) : Prop :=
  a.expiration_date < b.expiration_date ∨
    (a.expiration_date = b.expiration_date ∧ a.ingredient_batch_id ≤ b.ingredient_batch_id)

instance : DecidableRel fefoLE := fun a b => by
  unfold fefoLE
  infer_instance

instance : IsTotal IngredientBatch fefoLE :=
  ⟨by intro a b; unfold fefoLE; omega⟩

instance : IsTrans IngredientBatch fefoLE :=
  ⟨by intro a b c hab hbc; unfold fefoLE at *; omega⟩

/-- The WHERE clause of the FEFO lot query:
`ib.ingredient_id = %s AND ib.on_hand_oz > 0 AND ib.expiration_date >= CURDATE()`. -/
def isEligible (today : Int) (ingredient_id : Nat) (b : IngredientBatch) : Bool :=
  b.ingredient_id == ingredient_id &&
    decide (0 < b.on_hand_oz) && decide (today ≤ b.expiration_date)

/-- The `available_batches` query of `auto_select_lots_fefo`: eligible lots of
the ingredient, sorted ascending by expiration date, ties broken by
`ingredient_batch_id` ascending. -/
def available_batches (today : Int) (lots : List IngredientBatch) (ingredient_id : Nat) :
    List IngredientBatch :=
  List.insertionSort fefoLE (lots.filter (isEligible today ingredient_id))

/-- `total_available` in `auto_select_lots_fefo`: sum of `on_hand_oz` over the
eligible lots. -/
def total_available (today : Int) (lots : List IngredientBatch) (ingredient_id : Nat) : ℚ :=
  ((available_batches today lots ingredient_id).map IngredientBatch.on_hand_oz).sum

/-- `total_qty_needed` as computed by the recipe query:
`rpi.qty_oz_per_unit * produced_units`. -/
def qty_needed (item : RecipePlanItem) (produced_units : Int) : ℚ :=
  item.qty_oz_per_unit * (produced_units : ℚ)

/-- The per-ingredient selection loop of `auto_select_lots_fefo`: walk the
eligible lots in order; stop when `qty_remaining <= 0`; otherwise insert a
staging row for `min(qty_remaining, on_hand)` and continue.  Returns the
inserted rows and the final `qty_remaining`. -/
def select_loop (session_token : String) :
    List IngredientBatch → ℚ → List StagingConsumption × ℚ
  | [], qty_remaining => ([], qty_remaining)
  | b :: bs, qty_remaining =>
    if qty_remaining ≤ 0 then ([], qty_remaining)
    else
      let qty_to_take := min qty_remaining b.on_hand_oz
      let rest := select_loop session_token bs (qty_remaining - qty_to_take)
      (⟨session_token, b.ingredient_batch_id, qty_to_take⟩ :: rest.1, rest.2)

/-- The distinct failure kinds of `auto_select_lots_fefo` (each is a
`return (False, message, 0)` in the code). -/
inductive FefoError where
  | noIngredients
  | noAvailableLots (ingredient_id : Nat)
  | insufficientStock (ingredient_id : Nat) (shortage : ℚ) (eligible_lots : Nat)
  | walkShortfall (ingredient_id : Nat) (qty_remaining : ℚ)
  deriving DecidableEq, Repr

/-- The observable outcome of `auto_select_lots_fefo`: the returned
`(success, message, lots_selected)` triple (the message abstracted to its
error kind) together with the post-state of the `staging_consumption` table. -/
structure FefoResult where
  success : Bool
  err : Option FefoError
  lots_selected : Nat
  staging : List StagingConsumption
  deriving DecidableEq, Repr

/-- The `for item in recipe_items` loop of `auto_select_lots_fefo`.
`staging` is the current content of `staging_consumption`; `total_lots` is the
running `total_lots_selected` counter.  The three failure branches mirror the
code: no eligible lots and insufficient total stock return with the staging
table untouched; a shortfall after the walk deletes every row with the
session token. -/
def fefo_loop (today : Int) (lots : List IngredientBatch) (produced_units : Int)
    (session_token : String) :
    List RecipePlanItem → List StagingConsumption → Nat → FefoResult
  | [], staging, total_lots => ⟨true, none, total_lots, staging⟩
  | item :: rest, staging, total_lots =>
    if (available_batches today lots item.ingredient_id).isEmpty then
      ⟨false, some (FefoError.noAvailableLots item.ingredient_id), 0, staging⟩
    else if total_available today lots item.ingredient_id < qty_needed item produced_units then
      ⟨false,
        some (FefoError.insufficientStock item.ingredient_id
          (qty_needed item produced_units - total_available today lots item.ingredient_id)
          (available_batches today lots item.ingredient_id).length),
        0, staging⟩
    else if 0 < (select_loop session_token (available_batches today lots item.ingredient_id)
        (qty_needed item produced_units)).2 then
      ⟨false,
        some (FefoError.walkShortfall item.ingredient_id
          (select_loop session_token (available_batches today lots item.ingredient_id)
            (qty_needed item produced_units)).2),
        0,
        (staging ++ (select_loop session_token (available_batches today lots item.ingredient_id)
            (qty_needed item produced_units)).1).filter
          (fun r => !(r.session_token == session_token))⟩
    else
      fefo_loop today lots produced_units session_token rest
        (staging ++ (select_loop session_token (available_batches today lots item.ingredient_id)
          (qty_needed item produced_units)).1)
        (total_lots + (select_loop session_token (available_batches today lots item.ingredient_id)
          (qty_needed item produced_units)).1.length)

/-- `auto_select_lots_fefo`: empty recipe fails with
"No ingredients found in recipe plan"; otherwise run the per-ingredient loop. -/
def auto_select_lots_fefo (today : Int) (lots : List IngredientBatch)
    (recipe_items : List RecipePlanItem) (produced_units : Int)
    (session_token : String) (staging : List StagingConsumption) : FefoResult :=
  if recipe_items.isEmpty then ⟨false, some FefoError.noIngredients, 0, staging⟩
  else fefo_loop today lots produced_units session_token recipe_items staging 0

/-- Lookup of the owning ingredient of a staged row via its
`ingredient_batch_id`. -/
def batch_ingredient (lots : List IngredientBatch) (batch_id : Nat) : Option Nat :=
  (lots.find? (fun b => b.ingredient_batch_id == batch_id)).map IngredientBatch.ingredient_id

/-- Sum of staged quantities under a session token attributed to one
ingredient (rows whose lot belongs to that ingredient). -/
def staged_qty_for (staging : List StagingConsumption) (session_token : String)
    (lots : List IngredientBatch) (ingredient_id : Nat) : ℚ :=
  ((staging.filter (fun r => r.session_token == session_token &&
      batch_ingredient lots r.ingredient_batch_id == some ingredient_id)).map
    StagingConsumption.qty_oz).sum

/-- The session-token argument passed to `sp_record_product_batch` by
`create_product_batch`: the FEFO session token, or the empty string when the
legacy "use existing staging" path set `session_token = None`. -/
def session_token_param : Option String → String
  | some t => t
  | none => ""

/-- Modelled from the spec: the body of `sp_record_product_batch` is not under
src (only its callers and tests are); per the spec, the empty-token sentinel
means "use all currently staged allocations, unscoped", and a real token
scopes the commit to the rows of that session. -/
def commit_staging_rows (token_param : String) (staging : List StagingConsumption) :
    List StagingConsumption :=
  if token_param = "" then staging
  else staging.filter (fun r => r.session_token == token_param)

/-- The declined-confirmation path of `create_product_batch`: if a FEFO
session token exists, delete its staging rows; in legacy mode
(`session_token = None`) nothing is deleted. -/
def decline_cleanup (session_token : Option String) (staging : List StagingConsumption) :
    List StagingConsumption :=
  match session_token with
  | some t => staging.filter (fun r => !(r.session_token == t))
  | none => staging

/-- The batch-units input handling of `create_product_batch`: `int(...)`
raising ValueError prints "Invalid quantity" and aborts; any integer,
non-positive included, is accepted.  `none` models non-integer input. -/
def parse_batch_units : Option Int → Except String Int
  | none => Except.error "Invalid quantity"
  | some n => Except.ok n

/-- The days-window input of `trace_product_recall`: blank input or a
non-integer string both fall back to the default of 20; any integer parses
to itself. -/
inductive DaysWindowInput where
  | blank
  | notAnInt
  | intInput (n : Int)
  deriving DecidableEq, Repr

/-- The window-parsing logic of `trace_product_recall`. -/
def parse_days_window : DaysWindowInput → Int
  | DaysWindowInput.blank => 20
  | DaysWindowInput.notAnInt => 20
  | DaysWindowInput.intInput n => n

/-- The window actually handed to `CALL sp_trace_recall`: the function always
proceeds to the call with the parsed window (`none` would model rejecting the
input before the query, which the code never does). -/
def trace_recall_window (w : DaysWindowInput) : Option Int :=
  some (parse_days_window w)

example :
    auto_select_lots_fefo 0
      [⟨1, 1, 4, 5⟩, ⟨2, 1, 20, 20⟩] [⟨1, 10⟩] 1 "s" []
      = ⟨true, none, 2, [⟨"s", 1, 4⟩, ⟨"s", 2, 6⟩]⟩ := by
  norm_num [auto_select_lots_fefo, fefo_loop, total_available, available_batches,
    qty_needed, select_loop, isEligible, fefoLE, List.insertionSort, List.orderedInsert,
    min_def]

/-! ### Lemmas about the per-ingredient walk `select_loop` -/

theorem select_loop_nonpos (token : String) (bs : List IngredientBatch) (q : ℚ)
    (h : q ≤ 0) : select_loop token bs q = ([], q) := by
  cases bs <;> simp [select_loop, h]

theorem select_loop_sum (token : String) (bs : List IngredientBatch) (q : ℚ) :
    ((select_loop token bs q).1.map StagingConsumption.qty_oz).sum
      = q - (select_loop token bs q).2 := by
  induction bs generalizing q with
  | nil => simp [select_loop]
  | cons b bs ih =>
    by_cases h : q ≤ 0
    · simp [select_loop, h]
    · simp only [select_loop, if_neg h, List.map_cons, List.sum_cons]
      rw [ih]
      ring

theorem select_loop_nonneg (token : String) (bs : List IngredientBatch) (q : ℚ)
    (hq : 0 ≤ q) : 0 ≤ (select_loop token bs q).2 := by
  induction bs generalizing q with
  | nil => simpa [select_loop]
  | cons b bs ih =>
    by_cases h : q ≤ 0
    · simpa [select_loop, h]
    · simp only [select_loop, if_neg h]
      exact ih _ (by simp [sub_nonneg, min_le_left])

theorem select_loop_complete (token : String) (bs : List IngredientBatch) (q : ℚ)
    (hpos : ∀ b ∈ bs, 0 ≤ b.on_hand_oz)
    (hle : q ≤ (bs.map IngredientBatch.on_hand_oz).sum) :
    (select_loop token bs q).2 ≤ 0 := by
  induction bs generalizing q with
  | nil => simpa [select_loop] using hle
  | cons b bs ih =>
    by_cases h : q ≤ 0
    · simp [select_loop, h]
    · simp only [select_loop, if_neg h]
      apply ih _ (fun x hx => hpos x (List.mem_cons_of_mem _ hx))
      have hsum : 0 ≤ (bs.map IngredientBatch.on_hand_oz).sum :=
        List.sum_nonneg (by
          intro x hx
          obtain ⟨y, hy, rfl⟩ := List.mem_map.mp hx
          exact hpos y (List.mem_cons_of_mem _ hy))
      simp only [List.map_cons, List.sum_cons] at hle
      rcases min_cases q b.on_hand_oz with ⟨hm, _⟩ | ⟨hm, _⟩ <;> rw [hm] <;> linarith

theorem select_loop_mem (token : String) (bs : List IngredientBatch) (q : ℚ) :
    ∀ r ∈ (select_loop token bs q).1, r.session_token = token ∧
      ∃ b ∈ bs, r.ingredient_batch_id = b.ingredient_batch_id ∧
        r.qty_oz ≤ b.on_hand_oz ∧ (0 < b.on_hand_oz → 0 < r.qty_oz) := by
  induction bs generalizing q with
  | nil => simp [select_loop]
  | cons b bs ih =>
    by_cases h : q ≤ 0
    · simp [select_loop, h]
    · intro r hr
      simp only [select_loop, if_neg h, List.mem_cons] at hr
      rcases hr with rfl | hr
      · refine ⟨rfl, b, List.mem_cons_self _ _, rfl, min_le_right _ _, fun hb => ?_⟩
        exact lt_min (lt_of_not_le h) hb
      · obtain ⟨h1, bb, hbb, h2⟩ := ih _ r hr
        exact ⟨h1, bb, List.mem_cons_of_mem _ hbb, h2⟩

theorem select_loop_exact (token : String) (bs : List IngredientBatch)
    (hpos : ∀ b ∈ bs, 0 < b.on_hand_oz) :
    select_loop token bs ((bs.map IngredientBatch.on_hand_oz).sum)
      = (bs.map (fun b => ⟨token, b.ingredient_batch_id, b.on_hand_oz⟩), 0) := by
  induction bs with
  | nil => simp [select_loop]
  | cons b bs ih =>
    have h0 : 0 < b.on_hand_oz := hpos b (List.mem_cons_self _ _)
    have hsum : 0 ≤ (bs.map IngredientBatch.on_hand_oz).sum :=
      List.sum_nonneg (by
        intro x hx
        obtain ⟨y, hy, rfl⟩ := List.mem_map.mp hx
        exact le_of_lt (hpos y (List.mem_cons_of_mem _ hy)))
    have hq : ¬ (b.on_hand_oz + (bs.map IngredientBatch.on_hand_oz).sum ≤ 0) := by
      linarith
    have hmin : min (b.on_hand_oz + (bs.map IngredientBatch.on_hand_oz).sum) b.on_hand_oz
        = b.on_hand_oz := min_eq_right (by linarith)
    simp only [List.map_cons, List.sum_cons, select_loop, if_neg hq, hmin,
      add_sub_cancel_left]
    rw [ih (fun x hx => hpos x (List.mem_cons_of_mem _ hx))]

theorem select_loop_ids (token : String) (bs : List IngredientBatch) (q : ℚ) :
    ∃ rest, bs.map IngredientBatch.ingredient_batch_id
      = ((select_loop token bs q).1.map StagingConsumption.ingredient_batch_id) ++ rest := by
  induction bs generalizing q with
  | nil => exact ⟨[], by simp [select_loop]⟩
  | cons b bs ih =>
    by_cases h : q ≤ 0
    · exact ⟨(b :: bs).map IngredientBatch.ingredient_batch_id, by simp [select_loop, h]⟩
    · obtain ⟨rest, hrest⟩ := ih (q - min q b.on_hand_oz)
      exact ⟨rest, by simp [select_loop, if_neg h, hrest]⟩

/-! ### Lemmas about the FEFO lot query `available_batches` -/

theorem mem_available_batches (today : Int) (lots : List IngredientBatch)
    (i : Nat) (b : IngredientBatch) :
    b ∈ available_batches today lots i ↔
      b ∈ lots ∧ b.ingredient_id = i ∧ 0 < b.on_hand_oz ∧ today ≤ b.expiration_date := by
  unfold available_batches
  rw [List.Perm.mem_iff (List.perm_insertionSort fefoLE _)]
  simp [List.mem_filter, isEligible, and_assoc]

theorem sorted_available_batches (today : Int) (lots : List IngredientBatch) (i : Nat) :
    List.Sorted fefoLE (available_batches today lots i) :=
  List.sorted_insertionSort fefoLE _

theorem available_batches_pos (today : Int) (lots : List IngredientBatch) (i : Nat) :
    ∀ b ∈ available_batches today lots i, 0 < b.on_hand_oz :=
  fun b hb => ((mem_available_batches today lots i b).mp hb).2.2.1

/-! ### Attribution of staged rows to their owning ingredient -/

theorem find_batch_of_mem (lots : List IngredientBatch) (b : IngredientBatch)
    (hids : (lots.map IngredientBatch.ingredient_batch_id).Nodup) (hb : b ∈ lots) :
    lots.find? (fun x => x.ingredient_batch_id == b.ingredient_batch_id) = some b := by
  induction lots with
  | nil => cases hb
  | cons a as ih =>
    rw [List.map_cons] at hids
    have hnd := List.nodup_cons.mp hids
    rcases List.mem_cons.mp hb with rfl | hb2
    · simp
    · have hne : (a.ingredient_batch_id == b.ingredient_batch_id) = false := by
        simp only [beq_eq_false_iff_ne, ne_eq]
        intro he
        exact hnd.1 (he ▸ List.mem_map_of_mem IngredientBatch.ingredient_batch_id hb2)
      rw [List.find?_cons, hne]
      exact ih hnd.2 hb2

theorem batch_ingredient_of_mem (lots : List IngredientBatch) (b : IngredientBatch)
    (hids : (lots.map IngredientBatch.ingredient_batch_id).Nodup) (hb : b ∈ lots) :
    batch_ingredient lots b.ingredient_batch_id = some b.ingredient_id := by
  unfold batch_ingredient
  rw [find_batch_of_mem lots b hids hb]
  rfl

theorem staged_qty_for_append (s1 s2 : List StagingConsumption) (token : String)
    (lots : List IngredientBatch) (i : Nat) :
    staged_qty_for (s1 ++ s2) token lots i
      = staged_qty_for s1 token lots i + staged_qty_for s2 token lots i := by
  simp [staged_qty_for, List.filter_append]

theorem staged_qty_for_of_fresh (s : List StagingConsumption) (token : String)
    (lots : List IngredientBatch) (i : Nat)
    (h : ∀ r ∈ s, r.session_token ≠ token) : staged_qty_for s token lots i = 0 := by
  unfold staged_qty_for
  have hnil : s.filter (fun r => r.session_token == token &&
      batch_ingredient lots r.ingredient_batch_id == some i) = [] :=
    List.filter_eq_nil_iff.mpr (fun r hr => by simp [h r hr])
  rw [hnil]
  simp

/-- Every row written by the walk over the eligible lots of ingredient `i`
carries the session token and is attributed to ingredient `i`. -/
theorem select_rows_attr (today : Int) (lots : List IngredientBatch) (i : Nat)
    (token : String) (q : ℚ)
    (hids : (lots.map IngredientBatch.ingredient_batch_id).Nodup) :
    ∀ r ∈ (select_loop token (available_batches today lots i) q).1,
      r.session_token = token ∧ batch_ingredient lots r.ingredient_batch_id = some i := by
  intro r hr
  obtain ⟨htok, b, hb, hid, _⟩ := select_loop_mem token _ q r hr
  obtain ⟨hmem, hing, _, _⟩ := (mem_available_batches today lots i b).mp hb
  refine ⟨htok, ?_⟩
  rw [hid, batch_ingredient_of_mem lots b hids hmem, hing]

theorem staged_qty_select_rows_eq (today : Int) (lots : List IngredientBatch) (i : Nat)
    (token : String) (q : ℚ)
    (hids : (lots.map IngredientBatch.ingredient_batch_id).Nodup) :
    staged_qty_for (select_loop token (available_batches today lots i) q).1 token lots i
      = ((select_loop token (available_batches today lots i) q).1.map
          StagingConsumption.qty_oz).sum := by
  unfold staged_qty_for
  congr 1
  congr 1
  apply List.filter_eq_self.mpr
  intro r hr
  obtain ⟨htok, hattr⟩ := select_rows_attr today lots i token q hids r hr
  simp [htok, hattr]

theorem staged_qty_select_rows_ne (today : Int) (lots : List IngredientBatch) (i j : Nat)
    (token : String) (q : ℚ)
    (hids : (lots.map IngredientBatch.ingredient_batch_id).Nodup) (hj : j ≠ i) :
    staged_qty_for (select_loop token (available_batches today lots i) q).1 token lots j
      = 0 := by
  unfold staged_qty_for
  have hnil : (select_loop token (available_batches today lots i) q).1.filter
      (fun r => r.session_token == token &&
        batch_ingredient lots r.ingredient_batch_id == some j) = [] := by
    apply List.filter_eq_nil_iff.mpr
    intro r hr
    obtain ⟨htok, hattr⟩ := select_rows_attr today lots i token q hids r hr
    simp [htok, hattr, hj.symm]
  rw [hnil]
  simp

/-! ### Lemmas about the per-recipe loop `fefo_loop` -/

/-- On success, the loop adds no staged quantity for an ingredient outside the
processed recipe items. -/
theorem fefo_loop_frame (today : Int) (lots : List IngredientBatch) (units : Int)
    (token : String) :
    ∀ (items : List RecipePlanItem) (staging : List StagingConsumption) (n : Nat) (j : Nat),
      (lots.map IngredientBatch.ingredient_batch_id).Nodup →
      (fefo_loop today lots units token items staging n).success = true →
      j ∉ items.map RecipePlanItem.ingredient_id →
      staged_qty_for (fefo_loop today lots units token items staging n).staging token lots j
        = staged_qty_for staging token lots j := by
  intro items
  induction items with
  | nil => intro staging n j _ _ _; simp [fefo_loop]
  | cons item rest ih =>
    intro staging n j hids hsucc hj
    simp only [List.map_cons, List.mem_cons, not_or] at hj
    simp only [fefo_loop] at hsucc ⊢
    split_ifs at hsucc ⊢ with h1 h2 h3
    rw [ih _ _ j hids hsucc hj.2, staged_qty_for_append,
      staged_qty_select_rows_ne today lots item.ingredient_id j token _ hids hj.1,
      add_zero]

/-- On success, each processed recipe item contributes exactly its required
quantity to the staged total of its ingredient. -/
theorem fefo_loop_staged (today : Int) (lots : List IngredientBatch) (units : Int)
    (token : String) (hids : (lots.map IngredientBatch.ingredient_batch_id).Nodup)
    (hunits : 0 ≤ units) :
    ∀ (items : List RecipePlanItem) (staging : List StagingConsumption) (n : Nat),
      (items.map RecipePlanItem.ingredient_id).Nodup →
      (∀ it ∈ items, 0 ≤ it.qty_oz_per_unit) →
      (fefo_loop today lots units token items staging n).success = true →
      ∀ it ∈ items,
        staged_qty_for (fefo_loop today lots units token items staging n).staging
            token lots it.ingredient_id
          = staged_qty_for staging token lots it.ingredient_id + qty_needed it units := by
  intro items
  induction items with
  | nil => intro _ _ _ _ _ it hit; cases hit
  | cons item rest ih =>
    intro staging n hnodup hq hsucc it hit
    rw [List.map_cons] at hnodup
    have hnd := List.nodup_cons.mp hnodup
    simp only [fefo_loop] at hsucc ⊢
    split_ifs at hsucc ⊢ with h1 h2 h3
    rcases List.mem_cons.mp hit with rfl | hit2
    · rw [fefo_loop_frame today lots units token rest _ _ _ hids hsucc hnd.1,
        staged_qty_for_append,
        staged_qty_select_rows_eq today lots it.ingredient_id token _ hids]
      have hq0 : 0 ≤ qty_needed it units := by
        unfold qty_needed
        have : (0 : ℚ) ≤ (units : ℚ) := by exact_mod_cast hunits
        exact mul_nonneg (hq it (List.mem_cons_self _ _)) this
      have hle : qty_needed it units
          ≤ ((available_batches today lots it.ingredient_id).map
              IngredientBatch.on_hand_oz).sum := by
        have := not_lt.mp h2
        unfold total_available at this
        exact this
      have hcomp := select_loop_complete token
        (available_batches today lots it.ingredient_id) (qty_needed it units)
        (fun b hb => le_of_lt (available_batches_pos today lots it.ingredient_id b hb))
        hle
      have hnn := select_loop_nonneg token
        (available_batches today lots it.ingredient_id) (qty_needed it units) hq0
      have hrem : (select_loop token (available_batches today lots it.ingredient_id)
          (qty_needed it units)).2 = 0 := le_antisymm hcomp hnn
      rw [select_loop_sum, hrem, sub_zero]
    · have hne : it.ingredient_id ≠ item.ingredient_id := by
        intro he
        exact hnd.1 (he ▸ List.mem_map_of_mem RecipePlanItem.ingredient_id hit2)
      rw [ih _ _ hnd.2 (fun x hx => hq x (List.mem_cons_of_mem _ hx)) hsucc it hit2,
        staged_qty_for_append,
        staged_qty_select_rows_ne today lots item.ingredient_id it.ingredient_id
          token _ hids hne, add_zero]

/-- Rows under the session token in the post-state are positive and bounded by
the on-hand quantity of their source lot (assuming the pre-state rows satisfy
the same bound). -/
theorem fefo_loop_rows (today : Int) (lots : List IngredientBatch) (units : Int)
    (token : String) :
    ∀ (items : List RecipePlanItem) (staging : List StagingConsumption) (n : Nat),
      (∀ r ∈ staging, r.session_token = token →
        0 < r.qty_oz ∧ ∃ b ∈ lots, b.ingredient_batch_id = r.ingredient_batch_id ∧
          r.qty_oz ≤ b.on_hand_oz) →
      ∀ r ∈ (fefo_loop today lots units token items staging n).staging,
        r.session_token = token →
        0 < r.qty_oz ∧ ∃ b ∈ lots, b.ingredient_batch_id = r.ingredient_batch_id ∧
          r.qty_oz ≤ b.on_hand_oz := by
  intro items
  induction items with
  | nil => intro staging n hinv; simpa [fefo_loop] using hinv
  | cons item rest ih =>
    intro staging n hinv
    simp only [fefo_loop]
    split_ifs with h1 h2 h3
    · exact hinv
    · exact hinv
    · intro r hr htok
      simp only [List.mem_filter, Bool.not_eq_eq_eq_not, Bool.not_true,
        beq_eq_false_iff_ne, ne_eq] at hr
      exact absurd htok hr.2
    · apply ih
      intro r hr htok
      rcases List.mem_append.mp hr with hr1 | hr2
      · exact hinv r hr1 htok
      · obtain ⟨_, b, hb, hid, hle, hpos⟩ := select_loop_mem token _ _ r hr2
        obtain ⟨hmem, _, hbpos, _⟩ :=
          (mem_available_batches today lots item.ingredient_id b).mp hb
        exact ⟨hpos hbpos, b, hmem, hid.symm, hle⟩

/-- On the no-available-lots and insufficient-stock failure branches, the loop
returns with the staging table it had accumulated: nothing staged earlier is
deleted. -/
theorem fefo_loop_failure_keeps (today : Int) (lots : List IngredientBatch) (units : Int)
    (token : String) :
    ∀ (items : List RecipePlanItem) (staging : List StagingConsumption) (n : Nat),
      ((∃ i, (fefo_loop today lots units token items staging n).err
          = some (FefoError.noAvailableLots i)) ∨
       (∃ i s k, (fefo_loop today lots units token items staging n).err
          = some (FefoError.insufficientStock i s k))) →
      ∃ suffix, (fefo_loop today lots units token items staging n).staging
        = staging ++ suffix := by
  intro items
  induction items with
  | nil =>
    intro staging n h
    rcases h with ⟨i, hi⟩ | ⟨i, s, k, hi⟩ <;> simp [fefo_loop] at hi
  | cons item rest ih =>
    intro staging n h
    simp only [fefo_loop] at h ⊢
    split_ifs at h ⊢ with h1 h2 h3
    · exact ⟨[], by simp⟩
    · exact ⟨[], by simp⟩
    · rcases h with ⟨i, hi⟩ | ⟨i, s, k, hi⟩ <;> simp at hi
    · obtain ⟨suffix, hs⟩ := ih _ _ h
      exact ⟨(select_loop token (available_batches today lots item.ingredient_id)
          (qty_needed item units)).1 ++ suffix, by rw [hs, List.append_assoc]⟩

/-- With non-positive produced units and at least one eligible lot per
ingredient, the loop succeeds without staging anything. -/
theorem fefo_loop_nonpos_units (today : Int) (lots : List IngredientBatch) (units : Int)
    (token : String) (hunits : units ≤ 0) :
    ∀ (items : List RecipePlanItem) (staging : List StagingConsumption) (n : Nat),
      (∀ it ∈ items, 0 ≤ it.qty_oz_per_unit) →
      (∀ it ∈ items, available_batches today lots it.ingredient_id ≠ []) →
      fefo_loop today lots units token items staging n = ⟨true, none, n, staging⟩ := by
  intro items
  induction items with
  | nil => intro staging n _ _; simp [fefo_loop]
  | cons item rest ih =>
    intro staging n hq havail
    have hne : ¬ (available_batches today lots item.ingredient_id).isEmpty = true := by
      simpa [List.isEmpty_iff] using havail item (List.mem_cons_self _ _)
    have hq0 : qty_needed item units ≤ 0 := by
      unfold qty_needed
      have hcast : (units : ℚ) ≤ 0 := by exact_mod_cast hunits
      exact mul_nonpos_of_nonneg_of_nonpos (hq item (List.mem_cons_self _ _)) hcast
    have htot : ¬ total_available today lots item.ingredient_id
        < qty_needed item units := by
      have : 0 ≤ total_available today lots item.ingredient_id := by
        unfold total_available
        apply List.sum_nonneg
        intro x hx
        obtain ⟨b, hb, rfl⟩ := List.mem_map.mp hx
        exact le_of_lt (available_batches_pos today lots item.ingredient_id b hb)
      exact not_lt.mpr (le_trans hq0 this)
    have hsel := select_loop_nonpos token
      (available_batches today lots item.ingredient_id) (qty_needed item units) hq0
    simp only [fefo_loop, if_neg hne, if_neg htot, hsel]
    rw [if_neg (not_lt.mpr hq0)]
    simpa using ih staging n (fun x hx => hq x (List.mem_cons_of_mem _ hx))
      (fun x hx => havail x (List.mem_cons_of_mem _ hx))

/-! ### Claim theorems -/

/-- C1: for every recipe and produced-unit count on which FEFO selection
succeeds, the staged quantity per ingredient under the session token equals
that ingredient qty-per-unit times the produced-unit count exactly, the walk
consuming min(remaining, on_hand) from eligible lots in order. -/
theorem auto_select_lots_fefo_staged_sum
    (today : Int) (lots : List IngredientBatch) (recipe_items : List RecipePlanItem)
    (produced_units : Int) (session_token : String) (staging0 : List StagingConsumption)
    (hids : (lots.map IngredientBatch.ingredient_batch_id).Nodup)
    (hitems : (recipe_items.map RecipePlanItem.ingredient_id).Nodup)
    (hq : ∀ it ∈ recipe_items, 0 ≤ it.qty_oz_per_unit)
    (hunits : 0 ≤ produced_units)
    (hfresh : ∀ r ∈ staging0, r.session_token ≠ session_token)
    (hsucc : (auto_select_lots_fefo today lots recipe_items produced_units session_token
        staging0).success = true) :
    ∀ it ∈ recipe_items,
      staged_qty_for (auto_select_lots_fefo today lots recipe_items produced_units
          session_token staging0).staging session_token lots it.ingredient_id
        = it.qty_oz_per_unit * (produced_units : ℚ) := by
  unfold auto_select_lots_fefo at hsucc ⊢
  split_ifs at hsucc ⊢ with h
  intro it hit
  rw [fefo_loop_staged today lots produced_units session_token hids hunits recipe_items
      staging0 0 hitems hq hsucc it hit,
    staged_qty_for_of_fresh staging0 session_token lots it.ingredient_id hfresh, zero_add]
  rfl

/-- Witness for C1: the spec scenario (need 10 oz, lot 1 expires sooner with
4 oz, lot 2 has 20 oz) stages 4 + 6 = 10 oz for the ingredient. -/
theorem auto_select_lots_fefo_staged_sum_witness :
    staged_qty_for (auto_select_lots_fefo 0 [⟨1, 1, 4, 5⟩, ⟨2, 1, 20, 20⟩]
        [⟨1, 10⟩] 1 "s" []).staging "s" [⟨1, 1, 4, 5⟩, ⟨2, 1, 20, 20⟩] 1 = 10 := by
  have h := auto_select_lots_fefo_staged_sum 0 [⟨1, 1, 4, 5⟩, ⟨2, 1, 20, 20⟩]
    [⟨1, 10⟩] 1 "s" [] (by decide) (by decide) (by decide) (by decide) (by simp)
    (by norm_num [auto_select_lots_fefo, fefo_loop, total_available, available_batches,
      qty_needed, select_loop, isEligible, fefoLE, List.insertionSort, List.orderedInsert,
      min_def])
  simpa using h ⟨1, 10⟩ (List.mem_cons_self _ _)

/-- C2 counterexample: with ingredient 1 stocked and ingredient 2 without lots,
FEFO selection fails on ingredient 2 but the row already staged for
ingredient 1 remains under the session token, refuting full cleanup. -/
theorem fefo_failure_rows_remain_counterexample :
    (auto_select_lots_fefo 0 [⟨1, 1, 5, 10⟩] [⟨1, 1⟩, ⟨2, 1⟩] 1 "s" []).success = false ∧
    ¬ (∀ r ∈ (auto_select_lots_fefo 0 [⟨1, 1, 5, 10⟩] [⟨1, 1⟩, ⟨2, 1⟩] 1 "s" []).staging,
        r.session_token ≠ "s") := by
  have heval : auto_select_lots_fefo 0 [⟨1, 1, 5, 10⟩] [⟨1, 1⟩, ⟨2, 1⟩] 1 "s" []
      = ⟨false, some (FefoError.noAvailableLots 2), 0, [⟨"s", 1, 1⟩]⟩ := by
    norm_num [auto_select_lots_fefo, fefo_loop, total_available, available_batches,
      qty_needed, select_loop, isEligible, fefoLE, List.insertionSort, List.orderedInsert,
      min_def]
  rw [heval]
  refine ⟨rfl, fun hall => ?_⟩
  exact hall ⟨"s", 1, 1⟩ (List.mem_cons_self _ _) rfl

/-- C2 amended: on the no-available-lots and insufficient-stock failure paths,
FEFO selection returns with the staging table it had accumulated — rows
already staged for prior ingredients of the session remain; only the in-walk
shortfall path (and the exception handler, outside this model) deletes the
rows of the session token. -/
theorem auto_select_lots_fefo_failure_keeps_staging
    (today : Int) (lots : List IngredientBatch) (recipe_items : List RecipePlanItem)
    (produced_units : Int) (session_token : String) (staging0 : List StagingConsumption)
    (h : (∃ i, (auto_select_lots_fefo today lots recipe_items produced_units session_token
          staging0).err = some (FefoError.noAvailableLots i)) ∨
        (∃ i s k, (auto_select_lots_fefo today lots recipe_items produced_units session_token
          staging0).err = some (FefoError.insufficientStock i s k))) :
    ∃ suffix, (auto_select_lots_fefo today lots recipe_items produced_units session_token
        staging0).staging = staging0 ++ suffix := by
  unfold auto_select_lots_fefo at h ⊢
  split_ifs at h ⊢ with he
  · exact ⟨[], by simp⟩
  · exact fefo_loop_failure_keeps today lots produced_units session_token
      recipe_items staging0 0 h

/-- Witness for the amended C2: the counterexample scenario keeps the staged
row of ingredient 1 as a suffix over the initially empty staging table. -/
theorem auto_select_lots_fefo_failure_keeps_staging_witness :
    ∃ suffix, (auto_select_lots_fefo 0 [⟨1, 1, 5, 10⟩] [⟨1, 1⟩, ⟨2, 1⟩] 1 "s" []).staging
      = [] ++ suffix :=
  auto_select_lots_fefo_failure_keeps_staging 0 [⟨1, 1, 5, 10⟩] [⟨1, 1⟩, ⟨2, 1⟩] 1 "s" []
    (Or.inl ⟨2, by
      norm_num [auto_select_lots_fefo, fefo_loop, total_available, available_batches,
        qty_needed, select_loop, isEligible, fefoLE, List.insertionSort,
        List.orderedInsert, min_def]⟩)

/-- C3: the eligible-lot list is sorted ascending by expiration date with ties
broken by lot identity ascending, and the walk consumes lots as a prefix of
that order, so the earliest-expiring lot is always consumed first. -/
theorem fefo_selection_order (today : Int) (lots : List IngredientBatch) (i : Nat)
    (token : String) (q : ℚ) :
    List.Sorted fefoLE (available_batches today lots i) ∧
    ∃ rest, (available_batches today lots i).map IngredientBatch.ingredient_batch_id
      = ((select_loop token (available_batches today lots i) q).1.map
          StagingConsumption.ingredient_batch_id) ++ rest :=
  ⟨sorted_available_batches today lots i, select_loop_ids token _ q⟩

/-- C4: a lot participates only when its on-hand is strictly positive and it
is not yet expired; an ingredient whose lots are all expired or empty fails
with the no-available-lots error, which is distinct from insufficient stock. -/
theorem fefo_eligibility_and_no_lots (today : Int) (lots : List IngredientBatch) (i : Nat) :
    (∀ b, b ∈ available_batches today lots i ↔
      (b ∈ lots ∧ b.ingredient_id = i ∧ 0 < b.on_hand_oz ∧ today ≤ b.expiration_date)) ∧
    (∀ (item : RecipePlanItem) (rest : List RecipePlanItem) (units : Int) (token : String)
        (staging : List StagingConsumption) (n : Nat),
      item.ingredient_id = i →
      (∀ b ∈ lots, b.ingredient_id = i → b.on_hand_oz ≤ 0 ∨ b.expiration_date < today) →
      fefo_loop today lots units token (item :: rest) staging n
        = ⟨false, some (FefoError.noAvailableLots i), 0, staging⟩) ∧
    (∀ i1 i2 q n, FefoError.noAvailableLots i1 ≠ FefoError.insufficientStock i2 q n) := by
  refine ⟨mem_available_batches today lots i, ?_, by intro i1 i2 q n hcon; cases hcon⟩
  intro item rest units token staging n hi hbad
  subst hi
  have hempty : available_batches today lots item.ingredient_id = [] := by
    apply List.eq_nil_iff_forall_not_mem.mpr
    intro b hb
    obtain ⟨hmem, hing, hpos, hexp⟩ :=
      (mem_available_batches today lots item.ingredient_id b).mp hb
    rcases hbad b hmem hing with hc | hc
    · exact absurd hpos (not_lt.mpr hc)
    · exact absurd hexp (not_le.mpr hc)
  simp [fefo_loop, hempty]

/-- Witness for C4: an ingredient whose only lot is expired fails with the
no-available-lots error and stages nothing. -/
theorem fefo_eligibility_and_no_lots_witness :
    fefo_loop 0 [⟨1, 7, 5, -1⟩] 1 "s" [⟨7, 2⟩] [] 0
      = ⟨false, some (FefoError.noAvailableLots 7), 0, []⟩ :=
  (fefo_eligibility_and_no_lots 0 [⟨1, 7, 5, -1⟩] 7).2.1 ⟨7, 2⟩ [] 1 "s" [] 0 rfl (by decide)

/-- C5: with eligible lots whose total is short of the requirement, selection
fails immediately with insufficient stock carrying the shortage, the
ingredient and the eligible-lot count, staging nothing for that ingredient;
with total exactly equal, selection succeeds and stages every eligible lot in
full. -/
theorem fefo_insufficient_and_exact (today : Int) (lots : List IngredientBatch)
    (item : RecipePlanItem) (units : Int) (token : String)
    (staging : List StagingConsumption) (n : Nat) (rest : List RecipePlanItem) :
    (available_batches today lots item.ingredient_id ≠ [] →
      total_available today lots item.ingredient_id < qty_needed item units →
      fefo_loop today lots units token (item :: rest) staging n
        = ⟨false, some (FefoError.insufficientStock item.ingredient_id
            (qty_needed item units - total_available today lots item.ingredient_id)
            (available_batches today lots item.ingredient_id).length), 0, staging⟩) ∧
    (available_batches today lots item.ingredient_id ≠ [] →
      total_available today lots item.ingredient_id = qty_needed item units →
      fefo_loop today lots units token [item] staging n
        = ⟨true, none, n + (available_batches today lots item.ingredient_id).length,
            staging ++ (available_batches today lots item.ingredient_id).map
              (fun b => ⟨token, b.ingredient_batch_id, b.on_hand_oz⟩)⟩) := by
  constructor
  · intro hne hlt
    have h1 : ¬ (available_batches today lots item.ingredient_id).isEmpty = true := by
      simpa [List.isEmpty_iff] using hne
    simp only [fefo_loop, if_neg h1, if_pos hlt]
  · intro hne heq
    have h1 : ¬ (available_batches today lots item.ingredient_id).isEmpty = true := by
      simpa [List.isEmpty_iff] using hne
    have h2 : ¬ total_available today lots item.ingredient_id < qty_needed item units := by
      rw [heq]
      exact lt_irrefl _
    have hqs : qty_needed item units
        = ((available_batches today lots item.ingredient_id).map
            IngredientBatch.on_hand_oz).sum := by
      unfold total_available at heq
      exact heq.symm
    have hexact := select_loop_exact token (available_batches today lots item.ingredient_id)
      (available_batches_pos today lots item.ingredient_id)
    simp only [fefo_loop, if_neg h1, if_neg h2]
    rw [hqs, hexact]
    simp [fefo_loop, List.length_map]

/-- Witness for C5: two lots of 5 oz against a requirement of exactly 10 oz
succeed with both lots staged in full. -/
theorem fefo_insufficient_and_exact_witness :
    fefo_loop 0 [⟨1, 3, 5, 9⟩, ⟨2, 3, 5, 9⟩] 1 "s" [⟨3, 10⟩] [] 0
      = ⟨true, none, 2, [⟨"s", 1, 5⟩, ⟨"s", 2, 5⟩]⟩ :=
  (fefo_insufficient_and_exact 0 [⟨1, 3, 5, 9⟩, ⟨2, 3, 5, 9⟩] ⟨3, 10⟩ 1 "s" [] 0 []).2
    (by decide)
    (by norm_num [total_available, available_batches, qty_needed, isEligible, fefoLE,
      List.insertionSort, List.orderedInsert])

/-- C6 counterexample: zero produced units are not rejected — the units input
parses to 0 without error, and FEFO selection with 0 units succeeds staging
nothing instead of failing before staging. -/
theorem zero_units_not_rejected_counterexample :
    parse_batch_units (some 0) = Except.ok 0 ∧
    auto_select_lots_fefo 0 [⟨1, 1, 5, 10⟩] [⟨1, 2⟩] 0 "s" []
      = ⟨true, none, 0, []⟩ := by
  refine ⟨rfl, ?_⟩
  norm_num [auto_select_lots_fefo, fefo_loop, total_available, available_batches,
    qty_needed, select_loop, isEligible, fefoLE, List.insertionSort, List.orderedInsert,
    min_def]

/-- C6 amended: a recipe with zero ingredient lines fails before any lot is
staged, but non-positive produced units are not rejected: only a non-integer
input is refused as an invalid quantity, and FEFO selection with units at or
below zero succeeds staging nothing whenever each ingredient has an eligible
lot. -/
theorem auto_select_lots_fefo_units_validation
    (today : Int) (lots : List IngredientBatch) (recipe_items : List RecipePlanItem)
    (units : Int) (token : String) (staging0 : List StagingConsumption) :
    (recipe_items = [] →
      auto_select_lots_fefo today lots recipe_items units token staging0
        = ⟨false, some FefoError.noIngredients, 0, staging0⟩) ∧
    (recipe_items ≠ [] → units ≤ 0 →
      (∀ it ∈ recipe_items, 0 ≤ it.qty_oz_per_unit) →
      (∀ it ∈ recipe_items, available_batches today lots it.ingredient_id ≠ []) →
      auto_select_lots_fefo today lots recipe_items units token staging0
        = ⟨true, none, 0, staging0⟩) ∧
    (∀ n : Int, parse_batch_units (some n) = Except.ok n) ∧
    (parse_batch_units none = Except.error "Invalid quantity") := by
  refine ⟨?_, ?_, fun n => rfl, rfl⟩
  · intro he
    simp [auto_select_lots_fefo, he]
  · intro hne hu hq havail
    have hni : ¬ recipe_items.isEmpty = true := by
      simpa [List.isEmpty_iff] using hne
    simp only [auto_select_lots_fefo, if_neg hni]
    exact fefo_loop_nonpos_units today lots units token hu recipe_items staging0 0 hq havail

/-- Witness for the amended C6: negative produced units also pass through and
succeed with nothing staged. -/
theorem auto_select_lots_fefo_units_validation_witness :
    auto_select_lots_fefo 0 [⟨1, 1, 5, 10⟩] [⟨1, 2⟩] (-3) "s" []
      = ⟨true, none, 0, []⟩ :=
  (auto_select_lots_fefo_units_validation 0 [⟨1, 1, 5, 10⟩] [⟨1, 2⟩] (-3) "s" []).2.1
    (by decide) (by decide) (by decide) (by decide)

/-- C7: committing without a FEFO session token passes the empty-string
sentinel, and under the spec-modelled stored procedure that sentinel selects
every currently staged row regardless of session. -/
theorem legacy_commit_unscoped :
    session_token_param none = "" ∧
    ∀ staging : List StagingConsumption,
      commit_staging_rows (session_token_param none) staging = staging :=
  ⟨rfl, fun staging => by simp [commit_staging_rows, session_token_param]⟩

/-- C8 counterexample: a negative lookback window is not rejected — the value
-5 parses and is handed unchanged to the recall query. -/
theorem negative_window_used_counterexample :
    trace_recall_window (DaysWindowInput.intInput (-5)) = some (-5) ∧ (-5 : Int) < 0 :=
  ⟨rfl, by decide⟩

/-- C8 amended: the lookback window defaults to 20 days when the input is
blank or not an integer, and any parsed integer — negative included — is
passed to the recall query unchanged rather than rejected. -/
theorem trace_window_default_and_passthrough :
    parse_days_window DaysWindowInput.blank = 20 ∧
    parse_days_window DaysWindowInput.notAnInt = 20 ∧
    ∀ n : Int, trace_recall_window (DaysWindowInput.intInput n) = some n :=
  ⟨rfl, rfl, fun _ => rfl⟩

/-- C9: every staged row written by FEFO selection under the session token has
a strictly positive quantity bounded by the on-hand quantity of its source
lot. -/
theorem auto_select_lots_fefo_rows_bounds
    (today : Int) (lots : List IngredientBatch) (recipe_items : List RecipePlanItem)
    (units : Int) (token : String) (staging0 : List StagingConsumption)
    (hfresh : ∀ r ∈ staging0, r.session_token ≠ token) :
    ∀ r ∈ (auto_select_lots_fefo today lots recipe_items units token staging0).staging,
      r.session_token = token →
      0 < r.qty_oz ∧ ∃ b ∈ lots, b.ingredient_batch_id = r.ingredient_batch_id ∧
        r.qty_oz ≤ b.on_hand_oz := by
  have hinv : ∀ r ∈ staging0, r.session_token = token →
      0 < r.qty_oz ∧ ∃ b ∈ lots, b.ingredient_batch_id = r.ingredient_batch_id ∧
        r.qty_oz ≤ b.on_hand_oz :=
    fun r hr htok => absurd htok (hfresh r hr)
  unfold auto_select_lots_fefo
  split_ifs with h
  · exact hinv
  · exact fefo_loop_rows today lots units token recipe_items staging0 0 hinv

/-- Witness for C9: in the spec scenario the 4 oz row staged from lot 1 is
positive and within the 4 oz the lot holds. -/
theorem auto_select_lots_fefo_rows_bounds_witness :
    0 < (4 : ℚ) ∧ ∃ b ∈ [(⟨1, 1, 4, 5⟩ : IngredientBatch), ⟨2, 1, 20, 20⟩],
      b.ingredient_batch_id = 1 ∧ (4 : ℚ) ≤ b.on_hand_oz := by
  have hmem : (⟨"s", 1, 4⟩ : StagingConsumption)
      ∈ (auto_select_lots_fefo 0 [⟨1, 1, 4, 5⟩, ⟨2, 1, 20, 20⟩] [⟨1, 10⟩] 1 "s" []).staging := by
    norm_num [auto_select_lots_fefo, fefo_loop, total_available, available_batches,
      qty_needed, select_loop, isEligible, fefoLE, List.insertionSort, List.orderedInsert,
      min_def]
  exact auto_select_lots_fefo_rows_bounds 0 [⟨1, 1, 4, 5⟩, ⟨2, 1, 20, 20⟩] [⟨1, 10⟩]
    1 "s" [] (by simp) ⟨"s", 1, 4⟩ hmem rfl

/-- C10: declining the final commit confirmation deletes exactly the staging
rows of the FEFO session token, while legacy mode with no session token leaves
the staging table unchanged. -/
theorem decline_confirmation_cleanup :
    (∀ (t : String) (staging : List StagingConsumption) (r : StagingConsumption),
      r ∈ decline_cleanup (some t) staging ↔ (r ∈ staging ∧ r.session_token ≠ t)) ∧
    (∀ staging : List StagingConsumption, decline_cleanup none staging = staging) := by
  refine ⟨fun t staging r => ?_, fun staging => rfl⟩
  simp [decline_cleanup, List.mem_filter]
